import Mathlib

/-!
Verification of the rate-limiting core of `ghaf-nw-packet-forwarder`
(`src/filter/security.rs`): the `RateLimiter` sliding-window structure and the
`Security::is_packet_secure` entry point.

Modelling choices (shallow embedding):
* `Instant` is a `Nat` on a monotone clock; `Duration` a `Nat` in the same unit.
  `Instant::duration_since` saturates at zero for a later argument, which is
  exactly `Nat` truncated subtraction, so `now.duration_since(t)` is `now - t`.
* The `HashMap<(Ipv4Addr, IpNextHeaderProtocol, u16), VecDeque<Instant>>` is an
  association list with unique keys; `VecDeque<Instant>` is `List Nat`
  (front = oldest).  `entry(key).or_default()` followed by in-place mutation is
  modelled by a functional `setRoute` that replaces, or inserts, the binding.
* The async mutex serialises all access, so each call is modelled as a pure
  state transformer `RateLimiter → (result × RateLimiter)`.
-/

namespace GhafSecurity

/-- Flow key `(src_ip, protocol, dest_port)` of the `routes` map in
security.rs; the IPv4 address and the protocol number are abstracted to `Nat`. -/
structure Key where
  src_ip : Nat
  protocol : Nat
  dest_port : Nat
deriving DecidableEq

/-- State of `RateLimiter` (security.rs).  `cleanup_interval` is the field
spelled `_cleanup_interval` in the source; it is stored and never read. -/
structure RateLimiter where
  enabled : Bool
  routes : List (Key × List Nat)
  max_routes : Nat
  max_requests : Nat
  window : Nat
  cleanup_interval : Nat

/-- HashMap `get`: value of the first binding of `k`, if any. -/
def lookupRoute : List (Key × List Nat) → Key → Option (List Nat)
  | [], _ => none
  | p :: rest, k => if p.1 = k then some p.2 else lookupRoute rest k

/-- HashMap `contains_key`. -/
def containsKey : List (Key × List Nat) → Key → Bool
  | [], _ => false
  | p :: rest, k => if p.1 = k then true else containsKey rest k

/-- HashMap insert-or-replace, the net effect of `entry(key).or_default()`
followed by in-place mutation of the deque. -/
def setRoute : List (Key × List Nat) → Key → List Nat → List (Key × List Nat)
  | [], k, v => [(k, v)]
  | p :: rest, k, v => if p.1 = k then (k, v) :: rest else p :: setRoute rest k v

/-- `RateLimiter::new` (security.rs 110-128): empty table, `max_routes = 50`,
and the off-by-one reduction of `max_requests` when it exceeds 1. -/
def RateLimiter.new (enabled : Bool) (max_requests window cleanup_interval : Nat) :
    RateLimiter where
  enabled := enabled
  routes := []
  max_routes := 50
  max_requests := if max_requests > 1 then max_requests - 1 else max_requests
  window := window
  cleanup_interval := cleanup_interval

/-- `RateLimiter::is_allowed` (security.rs 131-157), with the call time `now`
made explicit: capacity guard, lazy prune of the queried key's deque
(`retain` keeps `now.duration_since(t) <= window`), then count-and-record. -/
def RateLimiter.is_allowed (s : RateLimiter) (key : Key) (now : Nat) :
    Bool × RateLimiter :=
  if s.max_routes ≤ s.routes.length ∧ containsKey s.routes key = false then
    (false, s)
  else
    let timestamps := (lookupRoute s.routes key).getD []
    let pruned := timestamps.filter fun t => decide (now - t ≤ s.window)
    if pruned.length < s.max_requests then
      (true, { s with routes := setRoute s.routes key (pruned ++ [now]) })
    else
      (false, { s with routes := setRoute s.routes key pruned })

/-- `RateLimiter::cleanup_old_requests` (security.rs 160-169): prune every
deque, then drop the keys whose deque became empty. -/
def RateLimiter.cleanup_old_requests (s : RateLimiter) (now : Nat) : RateLimiter :=
  let prunedRoutes :=
    s.routes.map (fun p => (p.1, p.2.filter (fun t => decide (now - t ≤ s.window))))
  { s with routes := prunedRoutes.filter (fun p => decide (p.2 ≠ [])) }

/-- `Security::is_packet_secure` (security.rs 77-95): zero-port rejection,
disabled short-circuit, else delegation to `is_allowed` under the lock. -/
def is_packet_secure (s : RateLimiter)
    (src_ip protocol src_port dest_port now : Nat) : Bool × RateLimiter :=
  if dest_port = 0 ∨ src_port = 0 then (false, s)
  else if s.enabled = false then (true, s)
  else s.is_allowed ⟨src_ip, protocol, dest_port⟩ now

/-- A sequence of `is_allowed` calls for one key at the given times, collecting
the decisions and the final limiter state. -/
def runAllowed (key : Key) : RateLimiter → List Nat → List Bool × RateLimiter
  | s, [] => ([], s)
  | s, now :: rest =>
    let r := s.is_allowed key now
    let cont := runAllowed key r.2 rest
    (r.1 :: cont.1, cont.2)

/-- A sequence of `is_packet_secure` calls for one flow at the given times. -/
def runFlow (src_ip protocol src_port dest_port : Nat) :
    RateLimiter → List Nat → List Bool × RateLimiter
  | s, [] => ([], s)
  | s, now :: rest =>
    let r := is_packet_secure s src_ip protocol src_port dest_port now
    let cont := runFlow src_ip protocol src_port dest_port r.2 rest
    (r.1 :: cont.1, cont.2)

/-- Limiter states reachable from a fresh `RateLimiter::new` by any
interleaving of `is_allowed` calls (the packet path) and
`cleanup_old_requests` (the maintenance task). -/
inductive Reachable : RateLimiter → Prop
  | init (enabled : Bool) (max_requests window cleanup_interval : Nat) :
      Reachable (RateLimiter.new enabled max_requests window cleanup_interval)
  | step_check (s : RateLimiter) (key : Key) (now : Nat) :
      Reachable s → Reachable (s.is_allowed key now).2
  | step_cleanup (s : RateLimiter) (now : Nat) :
      Reachable s → Reachable (s.cleanup_old_requests now)

/-- The queried key's deque after the lazy prune step of `is_allowed`
(an absent key contributes the empty deque `or_default` creates). -/
def prunedDeque (s : RateLimiter) (key : Key) (now : Nat) : List Nat :=
  ((lookupRoute s.routes key).getD []).filter (fun t => decide (now - t ≤ s.window))

/-- Length of the queried key's deque after the lazy prune of `is_allowed`. -/
def prunedLen (s : RateLimiter) (key : Key) (now : Nat) : Nat :=
  (prunedDeque s key now).length

/-- Total number of timestamps held across all routes. -/
def totalTimestamps (s : RateLimiter) : Nat :=
  (s.routes.map fun p => p.2.length).sum

/-- Invariant of reachable limiter states: fixed capacity 50, a key-count
within capacity, unique keys, and every deque within the request cap. -/
def RoutesInv (s : RateLimiter) : Prop :=
  s.max_routes = 50 ∧ s.routes.length ≤ s.max_routes ∧
    (s.routes.map Prod.fst).Nodup ∧ ∀ p ∈ s.routes, p.2.length ≤ s.max_requests

/-- The two mutexes of `Security` (security.rs 19-23). -/
inductive GateMutex
  | cancelToken
  | rateLimiter
deriving DecidableEq

/-- Mutex guards held by `Security::background_task` while it waits inside its
select loop: the `cancel_token` guard is taken once at line 54, before the
loop, and lives for the whole task. -/
def background_task_locks_held_while_waiting : List GateMutex :=
  [GateMutex.cancelToken]

/-- Mutexes `Security::set_cancel_token` (security.rs 102-105) must acquire to
replace the token. -/
def set_cancel_token_locks_required : List GateMutex :=
  [GateMutex.cancelToken]

/-- A concrete flow key used in witnesses: 192.168.1.1 as a number, TCP, 8080. -/
def keyA : Key := ⟨3232235777, 6, 8080⟩

/-- A second, distinct concrete flow key used in witnesses. -/
def keyB : Key := ⟨167772161, 17, 443⟩

/-- A concrete limiter state used in witnesses: two tracked flows, effective
request cap 1, window 100. -/
def sampleLimiter : RateLimiter :=
  { enabled := true, routes := [(keyA, [90]), (keyB, [5])], max_routes := 50,
    max_requests := 1, window := 100, cleanup_interval := 0 }

/-- Witness fixture for the prune scenario: one key holding timestamps 100 and
250 (ages 200 and 50 at time 300), window 100. -/
def pruneSample : RateLimiter :=
  { enabled := true, routes := [(keyA, [100, 250])], max_routes := 50,
    max_requests := 4, window := 100, cleanup_interval := 0 }

/-- Witness fixture for the window-slide scenario: one key holding one
timestamp at 0, effective cap 1, window 100. -/
def slideSample : RateLimiter :=
  { enabled := true, routes := [(keyA, [0])], max_routes := 50,
    max_requests := 1, window := 100, cleanup_interval := 0 }

theorem lookupRoute_setRoute_self (routes : List (Key × List Nat)) (k : Key)
    (v : List Nat) : lookupRoute (setRoute routes k v) k = some v := by
  induction routes with
  | nil => simp [setRoute, lookupRoute]
  | cons p rest ih =>
    by_cases h : p.1 = k
    · simp [setRoute, lookupRoute, h]
    · simp [setRoute, lookupRoute, h, ih]

theorem lookupRoute_setRoute_other (routes : List (Key × List Nat)) (k k2 : Key)
    (v : List Nat) (hne : k2 ≠ k) :
    lookupRoute (setRoute routes k v) k2 = lookupRoute routes k2 := by
  induction routes with
  | nil => simp [setRoute, lookupRoute, Ne.symm hne]
  | cons p rest ih =>
    by_cases h : p.1 = k
    · simp [setRoute, lookupRoute, h, Ne.symm hne]
    · by_cases h2 : p.1 = k2
      · simp [setRoute, lookupRoute, h, h2, hne]
      · simp [setRoute, lookupRoute, h, h2, ih]

theorem lookup_some_contains (routes : List (Key × List Nat)) (k : Key)
    (l : List Nat) (h : lookupRoute routes k = some l) :
    containsKey routes k = true := by
  induction routes with
  | nil => simp [lookupRoute] at h
  | cons p rest ih =>
    by_cases hp : p.1 = k
    · simp [containsKey, hp]
    · rw [lookupRoute, if_neg hp] at h
      simp [containsKey, hp, ih h]

theorem lookup_some_mem (routes : List (Key × List Nat)) (k : Key)
    (l : List Nat) (h : lookupRoute routes k = some l) : (k, l) ∈ routes := by
  induction routes with
  | nil => simp [lookupRoute] at h
  | cons p rest ih =>
    by_cases hp : p.1 = k
    · rw [lookupRoute, if_pos hp] at h
      have : p = (k, l) := by
        cases p
        simp_all
      simp [this]
    · rw [lookupRoute, if_neg hp] at h
      exact List.mem_cons_of_mem _ (ih h)

theorem contains_lookup_some (routes : List (Key × List Nat)) (k : Key)
    (h : containsKey routes k = true) : ∃ l, lookupRoute routes k = some l := by
  induction routes with
  | nil => simp [containsKey] at h
  | cons p rest ih =>
    by_cases hp : p.1 = k
    · exact ⟨p.2, by simp [lookupRoute, hp]⟩
    · rw [containsKey, if_neg hp] at h
      obtain ⟨l, hl⟩ := ih h
      exact ⟨l, by simp [lookupRoute, hp, hl]⟩

theorem mem_setRoute (routes : List (Key × List Nat)) (k : Key) (v : List Nat)
    (q : Key × List Nat) (h : q ∈ setRoute routes k v) :
    q = (k, v) ∨ q ∈ routes := by
  induction routes with
  | nil => simp [setRoute] at h; simp [h]
  | cons p rest ih =>
    by_cases hp : p.1 = k
    · rw [setRoute, if_pos hp] at h
      rcases List.mem_cons.1 h with h | h
      · exact Or.inl h
      · exact Or.inr (List.mem_cons_of_mem _ h)
    · rw [setRoute, if_neg hp] at h
      rcases List.mem_cons.1 h with h | h
      · exact Or.inr (by simp [h])
      · rcases ih h with h | h
        · exact Or.inl h
        · exact Or.inr (List.mem_cons_of_mem _ h)

theorem keys_setRoute_contains (routes : List (Key × List Nat)) (k : Key)
    (v : List Nat) (h : containsKey routes k = true) :
    (setRoute routes k v).map Prod.fst = routes.map Prod.fst := by
  induction routes with
  | nil => simp [containsKey] at h
  | cons p rest ih =>
    by_cases hp : p.1 = k
    · simp [setRoute, hp]
    · rw [containsKey, if_neg hp] at h
      simp [setRoute, hp, ih h]

theorem keys_setRoute_not_contains (routes : List (Key × List Nat)) (k : Key)
    (v : List Nat) (h : containsKey routes k = false) :
    (setRoute routes k v).map Prod.fst = routes.map Prod.fst ++ [k] := by
  induction routes with
  | nil => simp [setRoute]
  | cons p rest ih =>
    by_cases hp : p.1 = k
    · rw [containsKey, if_pos hp] at h
      exact absurd h (by simp)
    · rw [containsKey, if_neg hp] at h
      simp [setRoute, hp, ih h]

theorem contains_iff_mem_keys (routes : List (Key × List Nat)) (k : Key) :
    containsKey routes k = true ↔ k ∈ routes.map Prod.fst := by
  induction routes with
  | nil => simp [containsKey]
  | cons p rest ih =>
    by_cases hp : p.1 = k
    · rw [containsKey, if_pos hp, List.map_cons]
      simp [hp]
    · rw [containsKey, if_neg hp, ih, List.map_cons]
      constructor
      · exact fun h => List.mem_cons_of_mem _ h
      · intro h
        rcases List.mem_cons.1 h with h | h
        · exact absurd h.symm hp
        · exact h

theorem is_allowed_snd_cases (s : RateLimiter) (k : Key) (now : Nat) :
    (s.is_allowed k now).2 = s ∨
      ∃ v, (s.is_allowed k now).2 = { s with routes := setRoute s.routes k v } := by
  unfold RateLimiter.is_allowed
  split
  · exact Or.inl rfl
  · dsimp only
    split
    · exact Or.inr ⟨_, rfl⟩
    · exact Or.inr ⟨_, rfl⟩

theorem is_allowed_guard_false_eq (s : RateLimiter) (key : Key) (now : Nat)
    (hguard : ¬(s.max_routes ≤ s.routes.length ∧ containsKey s.routes key = false)) :
    s.is_allowed key now =
      (if (prunedDeque s key now).length < s.max_requests then
        (true, { s with routes := setRoute s.routes key (prunedDeque s key now ++ [now]) })
      else
        (false, { s with routes := setRoute s.routes key (prunedDeque s key now) })) := by
  unfold RateLimiter.is_allowed
  rw [if_neg hguard]
  rfl

/-- C5: `RateLimiter::new` stores `max_requests - 1` when the configured value
exceeds 1 and the configured value unchanged otherwise (so 0 and 1 are kept),
initialises an empty route table, `max_routes = 50`, and stores the remaining
arguments as given. -/
theorem c5_constructor_fields (e : Bool) (m w ci : Nat) :
    (RateLimiter.new e m w ci).max_requests = (if 1 < m then m - 1 else m) ∧
    (RateLimiter.new e m w ci).routes = [] ∧
    (RateLimiter.new e m w ci).max_routes = 50 ∧
    (RateLimiter.new e m w ci).enabled = e ∧
    (RateLimiter.new e m w ci).window = w ∧
    (RateLimiter.new e m w ci).cleanup_interval = ci :=
  ⟨rfl, rfl, rfl, rfl, rfl, rfl⟩

/-- C6: a zero source or destination port is rejected immediately, for every
limiter state, and the limiter is left untouched. -/
theorem c6_zero_port_denied (s : RateLimiter) (ip pr sp dp now : Nat)
    (h : sp = 0 ∨ dp = 0) :
    is_packet_secure s ip pr sp dp now = (false, s) := by
  unfold is_packet_secure
  rcases h with h | h <;> simp [h]

/-- C6 witness: a disabled-port query on a concrete limiter. -/
theorem c6_zero_port_denied_witness :
    is_packet_secure (RateLimiter.new true 5 100 0) 1 6 0 8080 7 =
      (false, RateLimiter.new true 5 100 0) :=
  c6_zero_port_denied (RateLimiter.new true 5 100 0) 1 6 0 8080 7 (Or.inl rfl)

/-- C7: with the limiter disabled, every call with nonzero ports is admitted
and the limiter state is returned unchanged (no key creation, no recording,
no pruning). -/
theorem c7_disabled_admits_unchanged (s : RateLimiter) (ip pr sp dp now : Nat)
    (he : s.enabled = false) (hs : sp ≠ 0) (hd : dp ≠ 0) :
    is_packet_secure s ip pr sp dp now = (true, s) := by
  unfold is_packet_secure
  simp [hs, hd, he]

/-- C7 witness: a concrete disabled limiter with a nonzero-port flow. -/
theorem c7_disabled_admits_unchanged_witness :
    is_packet_secure (RateLimiter.new false 5 100 0) 1 6 1234 8080 7 =
      (true, RateLimiter.new false 5 100 0) :=
  c7_disabled_admits_unchanged (RateLimiter.new false 5 100 0) 1 6 1234 8080 7
    rfl (by decide) (by decide)

/-- C10: every `is_allowed` call leaves `enabled`, `max_routes`,
`max_requests` and `window` unchanged and alters no key other than the queried
one; a denied call for an already-tracked key still replaces that key's deque
by its pruned form — expired timestamps removed, nothing appended. -/
theorem c10_frame (s : RateLimiter) (k : Key) (now : Nat) :
    ((s.is_allowed k now).2).enabled = s.enabled ∧
    ((s.is_allowed k now).2).max_routes = s.max_routes ∧
    ((s.is_allowed k now).2).max_requests = s.max_requests ∧
    ((s.is_allowed k now).2).window = s.window ∧
    (∀ k2, k2 ≠ k →
      lookupRoute ((s.is_allowed k now).2).routes k2 = lookupRoute s.routes k2) ∧
    ((s.is_allowed k now).1 = false → containsKey s.routes k = true →
      lookupRoute ((s.is_allowed k now).2).routes k = some (prunedDeque s k now)) := by
  unfold RateLimiter.is_allowed
  split
  case isTrue h =>
    exact ⟨rfl, rfl, rfl, rfl, fun k2 _ => rfl, fun _ hc => by simp [hc] at h⟩
  case isFalse h =>
    dsimp only
    split
    case isTrue hfit =>
      refine ⟨rfl, rfl, rfl, rfl, ?_, ?_⟩
      · intro k2 hne
        exact lookupRoute_setRoute_other _ _ _ _ hne
      · intro hfalse _
        simp at hfalse
    case isFalse hfit =>
      refine ⟨rfl, rfl, rfl, rfl, ?_, ?_⟩
      · intro k2 hne
        exact lookupRoute_setRoute_other _ _ _ _ hne
      · intro _ _
        exact lookupRoute_setRoute_self _ _ _

/-- C10 witness: a denied call for `keyA` on `sampleLimiter` keeps `keyA`'s
in-window timestamp, appends nothing, and leaves `keyB` untouched. -/
theorem c10_frame_witness :
    lookupRoute ((sampleLimiter.is_allowed keyA 100).2).routes keyB =
        lookupRoute sampleLimiter.routes keyB ∧
    lookupRoute ((sampleLimiter.is_allowed keyA 100).2).routes keyA = some [90] := by
  have h := c10_frame sampleLimiter keyA 100
  refine ⟨h.2.2.2.2.1 keyB (by decide), ?_⟩
  rw [h.2.2.2.2.2 (by decide) (by decide)]
  decide

theorem runAllowed_bracket (key : Key) (T : Nat) (ts : List Nat) :
    ∀ (s : RateLimiter) (l : List Nat),
      lookupRoute s.routes key = some l →
      (∀ t ∈ l, T ≤ t ∧ t ≤ T + s.window) →
      (∀ t ∈ ts, T ≤ t ∧ t ≤ T + s.window) →
      (runAllowed key s ts).1 =
        (List.range ts.length).map (fun i => decide (l.length + i < s.max_requests)) := by
  induction ts with
  | nil =>
    intro s l _ _ _
    simp [runAllowed]
  | cons now rest ih =>
    intro s l hl hbl hbts
    have hc : containsKey s.routes key = true := lookup_some_contains _ _ _ hl
    have hguard : ¬(s.max_routes ≤ s.routes.length ∧ containsKey s.routes key = false) := by
      simp [hc]
    have hprune : prunedDeque s key now = l := by
      unfold prunedDeque
      rw [hl]
      simp only [Option.getD_some]
      rw [List.filter_eq_self]
      intro t htl
      have h1 := hbl t htl
      have h2 := hbts now (List.mem_cons_self now rest)
      simp only [decide_eq_true_eq]
      omega
    simp only [runAllowed]
    rw [is_allowed_guard_false_eq s key now hguard, hprune]
    by_cases hfit : l.length < s.max_requests
    · rw [if_pos hfit]
      dsimp only
      have hbl2 : ∀ t ∈ l ++ [now],
          T ≤ t ∧ t ≤ T +
            ({ s with routes := setRoute s.routes key (l ++ [now]) } : RateLimiter).window := by
        intro t ht
        rcases List.mem_append.1 ht with ht | ht
        · exact hbl t ht
        · rw [List.mem_singleton] at ht
          subst ht
          exact hbts t (List.mem_cons_self _ _)
      have hbts2 : ∀ t ∈ rest,
          T ≤ t ∧ t ≤ T +
            ({ s with routes := setRoute s.routes key (l ++ [now]) } : RateLimiter).window :=
        fun t ht => hbts t (List.mem_cons_of_mem _ ht)
      rw [ih _ (l ++ [now]) (lookupRoute_setRoute_self _ _ _) hbl2 hbts2]
      dsimp only
      simp only [List.length_cons]
      rw [List.range_succ_eq_map, List.map_cons, List.map_map]
      congr 1
      · simp only [Nat.add_zero]
        exact (decide_eq_true_eq.mpr hfit).symm
      · apply List.map_congr_left
        intro i _
        simp only [Function.comp_def, List.length_append, List.length_cons,
          List.length_nil]
        exact decide_eq_decide.mpr (by omega)
    · rw [if_neg hfit]
      dsimp only
      have hbl2 : ∀ t ∈ l,
          T ≤ t ∧ t ≤ T +
            ({ s with routes := setRoute s.routes key l } : RateLimiter).window :=
        fun t ht => hbl t ht
      have hbts2 : ∀ t ∈ rest,
          T ≤ t ∧ t ≤ T +
            ({ s with routes := setRoute s.routes key l } : RateLimiter).window :=
        fun t ht => hbts t (List.mem_cons_of_mem _ ht)
      rw [ih _ l (lookupRoute_setRoute_self _ _ _) hbl2 hbts2]
      dsimp only
      simp only [List.length_cons]
      rw [List.range_succ_eq_map, List.map_cons, List.map_map]
      congr 1
      · simp only [Nat.add_zero]
        exact (decide_eq_false_iff_not.mpr hfit).symm
      · apply List.map_congr_left
        intro i _
        simp only [Function.comp_def]
        exact decide_eq_decide.mpr (by omega)

theorem runFlow_eq_runAllowed (ip pr sp dp : Nat) (hs : sp ≠ 0) (hd : dp ≠ 0)
    (ts : List Nat) :
    ∀ s : RateLimiter, s.enabled = true →
      runFlow ip pr sp dp s ts = runAllowed ⟨ip, pr, dp⟩ s ts := by
  induction ts with
  | nil =>
    intro s _
    rfl
  | cons now rest ih =>
    intro s he
    have hstep : is_packet_secure s ip pr sp dp now = s.is_allowed ⟨ip, pr, dp⟩ now := by
      unfold is_packet_secure
      simp [hs, hd, he]
    have hen2 : ((s.is_allowed ⟨ip, pr, dp⟩ now).2).enabled = true := by
      rcases is_allowed_snd_cases s ⟨ip, pr, dp⟩ now with h | ⟨v, h⟩
      · rw [h]
        exact he
      · rw [h]
        exact he
    simp only [runFlow, runAllowed, hstep]
    rw [ih _ hen2]

/-- C1: with the limiter enabled and nonzero source and destination ports, for
a flow whose key is either already tracked (with only expired timestamps) or
new with the table below capacity, a run of calls all lying inside one window
is admitted exactly up to the effective `max_requests`: the i-th call
(0-based) returns true iff i < max_requests — so the Nth (1-based) call
returns true iff N ≤ max_requests, and the next call in the same window
returns false. -/
theorem c1_window_admission (s : RateLimiter) (ip pr sp dp T : Nat)
    (ts : List Nat) (hs : sp ≠ 0) (hd : dp ≠ 0) (hen : s.enabled = true)
    (hcap : containsKey s.routes ⟨ip, pr, dp⟩ = true ∨ s.routes.length < s.max_routes)
    (hfresh : ∀ t ∈ (lookupRoute s.routes ⟨ip, pr, dp⟩).getD [],
      ∀ u ∈ ts, ¬(u - t ≤ s.window))
    (hts : ∀ t ∈ ts, T ≤ t ∧ t ≤ T + s.window) :
    (runFlow ip pr sp dp s ts).1 =
      (List.range ts.length).map (fun i => decide (i < s.max_requests)) := by
  rw [runFlow_eq_runAllowed ip pr sp dp hs hd ts s hen]
  cases ts with
  | nil => simp [runAllowed]
  | cons now rest =>
    have hguard :
        ¬(s.max_routes ≤ s.routes.length ∧ containsKey s.routes ⟨ip, pr, dp⟩ = false) := by
      rcases hcap with h | h
      · simp [h]
      · intro hco
        obtain ⟨h1, _⟩ := hco
        omega
    have hprune0 : prunedDeque s ⟨ip, pr, dp⟩ now = [] := by
      unfold prunedDeque
      rw [List.filter_eq_nil_iff]
      intro t ht
      simpa using hfresh t ht now (List.mem_cons_self _ _)
    simp only [runAllowed]
    rw [is_allowed_guard_false_eq s ⟨ip, pr, dp⟩ now hguard, hprune0]
    simp only [List.length_nil, List.nil_append]
    by_cases h0 : 0 < s.max_requests
    · rw [if_pos h0]
      dsimp only
      have hbl1 : ∀ t ∈ [now],
          T ≤ t ∧ t ≤ T +
            ({ s with routes := setRoute s.routes ⟨ip, pr, dp⟩ [now] } : RateLimiter).window := by
        intro t ht
        rw [List.mem_singleton] at ht
        subst ht
        exact hts t (List.mem_cons_self _ _)
      have hbts1 : ∀ t ∈ rest,
          T ≤ t ∧ t ≤ T +
            ({ s with routes := setRoute s.routes ⟨ip, pr, dp⟩ [now] } : RateLimiter).window :=
        fun t ht => hts t (List.mem_cons_of_mem _ ht)
      rw [runAllowed_bracket ⟨ip, pr, dp⟩ T rest _ [now]
        (lookupRoute_setRoute_self _ _ _) hbl1 hbts1]
      dsimp only
      simp only [List.length_cons, List.length_nil]
      rw [List.range_succ_eq_map, List.map_cons, List.map_map]
      congr 1
      · exact (decide_eq_true_eq.mpr h0).symm
      · apply List.map_congr_left
        intro i _
        simp only [Function.comp_def]
        exact decide_eq_decide.mpr (by omega)
    · rw [if_neg h0]
      dsimp only
      have hbl1 : ∀ t ∈ ([] : List Nat),
          T ≤ t ∧ t ≤ T +
            ({ s with routes := setRoute s.routes ⟨ip, pr, dp⟩ [] } : RateLimiter).window :=
        fun t ht => absurd ht (List.not_mem_nil t)
      have hbts1 : ∀ t ∈ rest,
          T ≤ t ∧ t ≤ T +
            ({ s with routes := setRoute s.routes ⟨ip, pr, dp⟩ [] } : RateLimiter).window :=
        fun t ht => hts t (List.mem_cons_of_mem _ ht)
      rw [runAllowed_bracket ⟨ip, pr, dp⟩ T rest _ []
        (lookupRoute_setRoute_self _ _ _) hbl1 hbts1]
      dsimp only
      simp only [List.length_cons, List.length_nil]
      rw [List.range_succ_eq_map, List.map_cons, List.map_map]
      congr 1
      · exact (decide_eq_false_iff_not.mpr h0).symm
      · apply List.map_congr_left
        intro i _
        simp only [Function.comp_def]
        exact decide_eq_decide.mpr (by omega)

/-- C1 witness: the spec's concrete scenario — `max_requests` configured as 5
(effective cap 4), five calls for one flow inside one window: the first four
return true, the fifth returns false. -/
theorem c1_window_admission_witness :
    (runFlow 3232235777 6 1234 8080 (RateLimiter.new true 5 100 0)
        [0, 10, 20, 30, 40]).1 = [true, true, true, true, false] := by
  have h := c1_window_admission (RateLimiter.new true 5 100 0) 3232235777 6 1234 8080 0
    [0, 10, 20, 30, 40] (by decide) (by decide) rfl
    (Or.inr (by decide)) (by decide) (by decide)
  rw [h]
  rfl

theorem length_setRoute_contains (routes : List (Key × List Nat)) (k : Key)
    (v : List Nat) (h : containsKey routes k = true) :
    (setRoute routes k v).length = routes.length := by
  induction routes with
  | nil => simp [containsKey] at h
  | cons p rest ih =>
    by_cases hp : p.1 = k
    · simp [setRoute, hp]
    · rw [containsKey, if_neg hp] at h
      simp [setRoute, hp, ih h]

theorem length_setRoute_not_contains (routes : List (Key × List Nat)) (k : Key)
    (v : List Nat) (h : containsKey routes k = false) :
    (setRoute routes k v).length = routes.length + 1 := by
  induction routes with
  | nil => simp [setRoute]
  | cons p rest ih =>
    by_cases hp : p.1 = k
    · rw [containsKey, if_pos hp] at h
      exact absurd h (by simp)
    · rw [containsKey, if_neg hp] at h
      simp [setRoute, hp, ih h]

theorem lookup_none_of_contains_false (routes : List (Key × List Nat)) (k : Key)
    (h : containsKey routes k = false) : lookupRoute routes k = none := by
  induction routes with
  | nil => rfl
  | cons p rest ih =>
    by_cases hp : p.1 = k
    · rw [containsKey, if_pos hp] at h
      exact absurd h (by simp)
    · rw [containsKey, if_neg hp] at h
      rw [lookupRoute, if_neg hp]
      exact ih h

theorem sum_map_le {α : Type} (f : α → Nat) (c : Nat) (l : List α)
    (h : ∀ x ∈ l, f x ≤ c) : (l.map f).sum ≤ l.length * c := by
  induction l with
  | nil => simp
  | cons x xs ih =>
    simp only [List.map_cons, List.sum_cons, List.length_cons]
    have h1 := h x (List.mem_cons_self _ _)
    have h2 := ih (fun y hy => h y (List.mem_cons_of_mem _ hy))
    calc f x + (xs.map f).sum ≤ c + xs.length * c := Nat.add_le_add h1 h2
      _ = (xs.length + 1) * c := by ring

theorem routesInv_new (e : Bool) (m w ci : Nat) :
    RoutesInv (RateLimiter.new e m w ci) := by
  refine ⟨rfl, by simp [RateLimiter.new], by simp [RateLimiter.new], ?_⟩
  intro p hp
  simp [RateLimiter.new] at hp

theorem prunedDeque_length_le (s : RateLimiter) (k : Key) (now : Nat)
    (hbound : ∀ p ∈ s.routes, p.2.length ≤ s.max_requests) :
    (prunedDeque s k now).length ≤ s.max_requests := by
  unfold prunedDeque
  cases hlk : lookupRoute s.routes k with
  | none => simp
  | some l =>
    have hmem := lookup_some_mem _ _ _ hlk
    have hle := hbound (k, l) hmem
    simp only [Option.getD_some]
    calc (l.filter _).length ≤ l.length := List.length_filter_le _ _
      _ ≤ s.max_requests := hle

theorem not_mem_keys_of_contains_false (routes : List (Key × List Nat)) (k : Key)
    (h : containsKey routes k = false) : ¬ k ∈ routes.map Prod.fst := by
  intro hmem
  have h1 := (contains_iff_mem_keys routes k).mpr hmem
  simp [h1] at h

theorem routesInv_setRoute (s : RateLimiter) (k : Key) (v : List Nat)
    (hnew : v.length ≤ s.max_requests)
    (hroom : containsKey s.routes k = false → s.routes.length < s.max_routes)
    (h : RoutesInv s) :
    RoutesInv { s with routes := setRoute s.routes k v } := by
  obtain ⟨h50, hlen, hnd, hbound⟩ := h
  refine ⟨h50, ?_, ?_, ?_⟩
  · cases hk : containsKey s.routes k with
    | true =>
      dsimp only
      rw [length_setRoute_contains _ _ _ hk]
      exact hlen
    | false =>
      dsimp only
      rw [length_setRoute_not_contains _ _ _ hk]
      have := hroom hk
      omega
  · cases hk : containsKey s.routes k with
    | true =>
      dsimp only
      rw [keys_setRoute_contains _ _ _ hk]
      exact hnd
    | false =>
      dsimp only
      rw [keys_setRoute_not_contains _ _ _ hk]
      rw [List.nodup_append]
      refine ⟨hnd, List.nodup_singleton _, ?_⟩
      intro a ha hb
      rw [List.mem_singleton] at hb
      subst hb
      exact not_mem_keys_of_contains_false _ _ hk ha
  · intro p hp
    rcases mem_setRoute _ _ _ _ hp with hq | hq
    · subst hq
      exact hnew
    · exact hbound p hq

theorem routesInv_is_allowed (s : RateLimiter) (k : Key) (now : Nat)
    (h : RoutesInv s) : RoutesInv (s.is_allowed k now).2 := by
  by_cases hguard : s.max_routes ≤ s.routes.length ∧ containsKey s.routes k = false
  · unfold RateLimiter.is_allowed
    rw [if_pos hguard]
    exact h
  · rw [is_allowed_guard_false_eq s k now hguard]
    have hroom : containsKey s.routes k = false → s.routes.length < s.max_routes := by
      intro hk
      by_contra hge
      exact hguard ⟨Nat.le_of_not_lt hge, hk⟩
    have hplen := prunedDeque_length_le s k now h.2.2.2
    split
    next hfit =>
      refine routesInv_setRoute s k _ ?_ hroom h
      simp only [List.length_append, List.length_cons, List.length_nil]
      omega
    next hfit =>
      exact routesInv_setRoute s k _ hplen hroom h

theorem routesInv_cleanup (s : RateLimiter) (now : Nat) (h : RoutesInv s) :
    RoutesInv (s.cleanup_old_requests now) := by
  obtain ⟨h50, hlen, hnd, hbound⟩ := h
  have hlen2 : ((s.routes.map (fun p => (p.1, p.2.filter (fun t => decide (now - t ≤ s.window))))).filter
      (fun p => decide (p.2 ≠ []))).length ≤ s.max_routes := by
    calc ((s.routes.map (fun p => (p.1, p.2.filter (fun t => decide (now - t ≤ s.window))))).filter
          (fun p => decide (p.2 ≠ []))).length
        ≤ (s.routes.map (fun p => (p.1, p.2.filter (fun t => decide (now - t ≤ s.window))))).length :=
          List.length_filter_le _ _
      _ = s.routes.length := List.length_map _ _
      _ ≤ s.max_routes := hlen
  have hnd2 : (((s.routes.map (fun p => (p.1, p.2.filter (fun t => decide (now - t ≤ s.window))))).filter
      (fun p => decide (p.2 ≠ []))).map Prod.fst).Nodup := by
    have hsub : List.Sublist
        ((s.routes.map (fun p => (p.1, p.2.filter (fun t => decide (now - t ≤ s.window))))).filter
          (fun p => decide (p.2 ≠ [])))
        (s.routes.map (fun p => (p.1, p.2.filter (fun t => decide (now - t ≤ s.window))))) :=
      List.filter_sublist _
    have hmapsub := hsub.map Prod.fst
    have hkeys : (s.routes.map (fun p => (p.1, p.2.filter (fun t => decide (now - t ≤ s.window))))).map
        Prod.fst = s.routes.map Prod.fst := by
      rw [List.map_map]
      apply List.map_congr_left
      intro p _
      rfl
    rw [hkeys] at hmapsub
    exact List.Nodup.sublist hmapsub hnd
  have hbound2 : ∀ p ∈ (s.routes.map
      (fun p => (p.1, p.2.filter (fun t => decide (now - t ≤ s.window))))).filter
        (fun p => decide (p.2 ≠ [])), p.2.length ≤ s.max_requests := by
    intro p hp
    have hp2 := List.mem_of_mem_filter hp
    obtain ⟨q, hq, hpq⟩ := List.mem_map.1 hp2
    subst hpq
    calc ((q.2.filter (fun t => decide (now - t ≤ s.window)))).length
        ≤ q.2.length := List.length_filter_le _ _
      _ ≤ s.max_requests := hbound q hq
  exact ⟨h50, hlen2, hnd2, hbound2⟩

theorem reachable_routesInv (s : RateLimiter) (h : Reachable s) : RoutesInv s := by
  induction h with
  | init e m w ci => exact routesInv_new e m w ci
  | step_check s k now _ ih => exact routesInv_is_allowed s k now ih
  | step_cleanup s now _ ih => exact routesInv_cleanup s now ih

/-- C2: in every state reachable from a fresh limiter the route table holds at
most `max_routes` (= 50) keys; at exactly `max_routes` keys a call for an
untracked key returns false with the state completely unchanged, while a call
for a tracked key goes through the normal prune-and-count decision. -/
theorem c2_capacity (s : RateLimiter) (hr : Reachable s) :
    s.max_routes = 50 ∧
    s.routes.length ≤ s.max_routes ∧
    (∀ k now, s.routes.length = s.max_routes → containsKey s.routes k = false →
      s.is_allowed k now = (false, s)) ∧
    (∀ k now, containsKey s.routes k = true →
      (s.is_allowed k now).1 = decide (prunedLen s k now < s.max_requests)) := by
  obtain ⟨h50, hlen, _, _⟩ := reachable_routesInv s hr
  refine ⟨h50, hlen, ?_, ?_⟩
  · intro k now hfull hk
    unfold RateLimiter.is_allowed
    rw [if_pos ⟨le_of_eq hfull.symm, hk⟩]
  · intro k now hk
    rw [is_allowed_guard_false_eq s k now (by simp [hk])]
    unfold prunedLen
    split
    case isTrue hfit => simp [hfit]
    case isFalse hfit => simp [hfit]

/-- C2 witness: the capacity bound instantiated at a fresh limiter. -/
theorem c2_capacity_witness :
    (RateLimiter.new true 5 100 0).max_routes = 50 ∧
    (RateLimiter.new true 5 100 0).routes.length ≤
      (RateLimiter.new true 5 100 0).max_routes :=
  ⟨(c2_capacity _ (Reachable.init true 5 100 0)).1,
   (c2_capacity _ (Reachable.init true 5 100 0)).2.1⟩

/-- C9: in every reachable state every key's deque holds at most the effective
`max_requests` timestamps, so the table holds at most
`max_routes * max_requests` timestamps in total. -/
theorem c9_memory_bound (s : RateLimiter) (hr : Reachable s) :
    (∀ p ∈ s.routes, p.2.length ≤ s.max_requests) ∧
    totalTimestamps s ≤ s.max_routes * s.max_requests := by
  obtain ⟨_, hlen, _, hbound⟩ := reachable_routesInv s hr
  refine ⟨hbound, ?_⟩
  unfold totalTimestamps
  calc (s.routes.map fun p => p.2.length).sum
      ≤ s.routes.length * s.max_requests :=
        sum_map_le _ _ _ (fun p hp => hbound p hp)
    _ ≤ s.max_routes * s.max_requests := Nat.mul_le_mul hlen (le_refl _)

/-- C9 witness: the total-timestamp bound instantiated at a fresh limiter. -/
theorem c9_memory_bound_witness :
    totalTimestamps (RateLimiter.new true 5 100 0) ≤
      (RateLimiter.new true 5 100 0).max_routes *
        (RateLimiter.new true 5 100 0).max_requests :=
  (c9_memory_bound _ (Reachable.init true 5 100 0)).2

theorem lookupRoute_cons (q : Key × List Nat) (rs : List (Key × List Nat))
    (k : Key) :
    lookupRoute (q :: rs) k = if q.1 = k then some q.2 else lookupRoute rs k :=
  rfl

theorem cleanup_lookup (w now : Nat) (routes : List (Key × List Nat)) :
    ∀ k : Key, (routes.map Prod.fst).Nodup →
      lookupRoute ((routes.map (fun p => (p.1, p.2.filter (fun t => decide (now - t ≤ w))))).filter
          (fun p => decide (p.2 ≠ []))) k =
        (lookupRoute routes k).bind (fun l =>
          if l.filter (fun t => decide (now - t ≤ w)) = [] then none
          else some (l.filter (fun t => decide (now - t ≤ w)))) := by
  induction routes with
  | nil =>
    intro k _
    rfl
  | cons p rest ih =>
    intro k hnd
    rw [List.map_cons, List.nodup_cons] at hnd
    obtain ⟨hpnot, hndr⟩ := hnd
    rw [List.map_cons, List.filter_cons]
    dsimp only
    by_cases hemp : p.2.filter (fun t => decide (now - t ≤ w)) = []
    · have hcondF : ¬(decide ((p.2.filter (fun t => decide (now - t ≤ w))) ≠ []) = true) := by
        rw [hemp]
        decide
      rw [if_neg hcondF]
      rw [ih k hndr, lookupRoute_cons]
      by_cases hp : p.1 = k
      · have hrest : lookupRoute rest k = none := by
          apply lookup_none_of_contains_false
          cases hck : containsKey rest k with
          | false => rfl
          | true => exact absurd ((contains_iff_mem_keys rest k).mp hck) (hp ▸ hpnot)
        rw [hrest, if_pos hp]
        show (none : Option (List Nat)) =
          if p.2.filter (fun t => decide (now - t ≤ w)) = [] then none
          else some (p.2.filter (fun t => decide (now - t ≤ w)))
        rw [if_pos hemp]
      · rw [if_neg hp]
    · have hcondT : decide ((p.2.filter (fun t => decide (now - t ≤ w))) ≠ []) = true :=
        decide_eq_true hemp
      rw [if_pos hcondT]
      rw [lookupRoute_cons, lookupRoute_cons]
      dsimp only
      by_cases hp : p.1 = k
      · rw [if_pos hp, if_pos hp]
        show some (p.2.filter (fun t => decide (now - t ≤ w))) =
          if p.2.filter (fun t => decide (now - t ≤ w)) = [] then none
          else some (p.2.filter (fun t => decide (now - t ≤ w)))
        rw [if_neg hemp]
      · rw [if_neg hp, if_neg hp]
        exact ih k hndr

/-- C3: `cleanup_old_requests` (PruneAll) maps each tracked key's deque to
exactly its timestamps of age ≤ window — every timestamp older than the
window is removed and no in-window timestamp is removed — and removes a key
iff its pruned deque is empty; untracked keys stay untracked. -/
theorem c3_cleanup_exact (s : RateLimiter) (now : Nat)
    (hnd : (s.routes.map Prod.fst).Nodup) (k : Key) :
    lookupRoute (s.cleanup_old_requests now).routes k =
      (lookupRoute s.routes k).bind (fun l =>
        if l.filter (fun t => decide (now - t ≤ s.window)) = [] then none
        else some (l.filter (fun t => decide (now - t ≤ s.window)))) :=
  cleanup_lookup s.window now s.routes k hnd

/-- C3 witness: the spec scenario — window 100, one key with timestamps of
age 200 and 50 at time 300; after the prune exactly the 50-old timestamp
remains. -/
theorem c3_cleanup_exact_witness :
    lookupRoute ((pruneSample.cleanup_old_requests 300).routes) keyA =
      some [250] := by
  rw [c3_cleanup_exact pruneSample 300 (by decide) keyA]
  decide

/-- C4 counterexample: effective cap 1, window 100; one admitted request at
time 0, then a call at time 100 — a duration of exactly `window` (so "at
least `window`") has elapsed with no intervening requests, yet the call is
denied, because the prune keeps timestamps whose age equals the window (only
ages strictly greater are removed).  The conjuncts show: the recorded request
was admitted; a full window has elapsed; the next call still returns false,
refuting the claim as stated. -/
theorem c4_counterexample :
    ((RateLimiter.new true 2 100 0).is_allowed keyA 0).1 = true ∧
    100 - 0 ≥ (RateLimiter.new true 2 100 0).window ∧
    (((RateLimiter.new true 2 100 0).is_allowed keyA 0).2.is_allowed keyA 100).1 = false := by
  decide

/-- C4 (amended): once strictly more than `window` has elapsed since every
timestamp recorded for a tracked key, a call for that key (limiter enabled,
positive effective `max_requests`) is admitted, regardless of how many prior
requests were denied — the in-place prune removes every timestamp whose age
exceeds the window. -/
theorem c4_window_slide (s : RateLimiter) (key : Key) (l : List Nat)
    (now : Nat) (hen : s.enabled = true)
    (hl : lookupRoute s.routes key = some l)
    (hexp : ∀ t ∈ l, s.window < now - t)
    (hcap : 0 < s.max_requests) :
    (s.is_allowed key now).1 = true := by
  have hc := lookup_some_contains _ _ _ hl
  rw [is_allowed_guard_false_eq s key now (by simp [hc])]
  have hprune : prunedDeque s key now = [] := by
    unfold prunedDeque
    rw [hl]
    simp only [Option.getD_some]
    rw [List.filter_eq_nil_iff]
    intro t ht
    have := hexp t ht
    simp only [decide_eq_true_eq]
    omega
  rw [hprune]
  simp only [List.length_nil]
  rw [if_pos hcap]

/-- C4 (amended) witness: key with one timestamp at 0, window 100, call at
time 101 — admitted. -/
theorem c4_window_slide_witness :
    (slideSample.is_allowed keyA 101).1 = true :=
  c4_window_slide slideSample keyA [0] 101 rfl (by decide) (by decide) (by decide)

/-- C8: the lock discipline the claim asserts is violated by the code: the
mutex `set_cancel_token` must acquire is one the background task's waiting
loop holds for its entire lifetime (its guard is taken once, before the
loop), so a replacement cannot complete while the loop runs. -/
theorem c8_lock_overlap :
    ∃ m, m ∈ background_task_locks_held_while_waiting ∧
      m ∈ set_cancel_token_locks_required :=
  ⟨GateMutex.cancelToken, by decide, by decide⟩

end GhafSecurity
